import Mathlib

set_option maxRecDepth 8000

/-!
Verification of the `bytesort` package (`bytesort.go`).

The package encodes Go values as byte slices whose unsigned bytewise
lexicographic order matches the natural order of the values.  We embed the
source shallowly: byte slices are `List ℕ` (every entry a byte value),
machine integers are `ℕ`/`ℤ` with explicit `% 2^w` where the Go code
truncates, and fallible functions return `Except String`.
-/

namespace Bytesort

/-- Unsigned bytewise lexicographic "less or equal", i.e.
`bytes.Compare a b <= 0` from the Go standard library: elements are
compared left to right, a strict prefix sorts first. -/
def lexLe : List ℕ → List ℕ → Bool
  | [], _ => true
  | _ :: _, [] => false
  | a :: as, b :: bs => if a < b then true else if a = b then lexLe as bs else false

/-- `binary.BigEndian.PutUintN`: the `w`-byte big-endian encoding of `x`;
byte `i` (from the left) is `byte(x >> 8*(w-1-i))`, and Go's `byte(·)`
conversion truncates to the low 8 bits. -/
def beBytes : ℕ → ℕ → List ℕ
  | 0, _ => []
  | w + 1, x => ((x >>> (8 * w)) % 256) :: beBytes w x

/-- Go conversion of a signed integer to its `w`-byte unsigned bit pattern:
`uintN(v)` is `v` modulo `2^(8w)` (two's complement). -/
def toUintBits (w : ℕ) (v : ℤ) : ℕ := (v % ((2 : ℤ) ^ (8 * w))).toNat

/-- The `case string` branch of `Encode`: the raw bytes of the string, except
that the empty string is encoded as the single byte `0x00`
("Special case for empty strings because empty bucket names are not
allowed. Use a zero byte to represent an empty string."). -/
def encodeString (s : List ℕ) : List ℕ :=
  if s.length = 0 then [0] else s

/-- Model of Go's `time.Time` as far as `MarshalBinary` reads it:
`sec` is the internal absolute second count (seconds since January 1 of
year 1, UTC; an `int64`), `nsec` the nanosecond part (an `int32` in
`[0, 10^9)`), and the location is either UTC or a fixed zone with an
offset in seconds east of UTC. -/
structure GoTime where
  sec : ℤ
  nsec : ℤ
  utc : Bool
  offset : ℤ

/-- The values `Encode`'s `interface{}` argument ranges over in the claims:
each supported dynamic type is a constructor (signed integers carry `ℤ`,
unsigned ones `ℕ`, floats carry their IEEE-754 bit pattern as produced by
`math.FloatNbits`), plus the unsupported values exercised by the tests
(`nil`, `[]string{}`, `map[string]string{}`) and the test suite's custom
wrapper type `int64Type` (a defined type whose underlying type is `int64`,
carrying an `EncodeSortable` method). -/
inductive Value where
  | boolV (b : Bool)
  | int8V (v : ℤ)
  | uint8V (v : ℕ)
  | int16V (v : ℤ)
  | uint16V (v : ℕ)
  | int32V (v : ℤ)
  | uint32V (v : ℕ)
  | int64V (v : ℤ)
  | uint64V (v : ℕ)
  | intV (v : ℤ)
  | uintV (v : ℕ)
  | stringV (s : List ℕ)
  | timeV (t : GoTime)
  | float32V (bits : ℕ)
  | float64V (bits : ℕ)
  | nilV
  | stringSliceV
  | mapStringStringV
  | int64TypeV (v : ℤ)

/-- `intDataSize` from the source: the encoded byte width of the integer
kinds handled by `encodeInt`, and `0` for every other dynamic type. -/
def intDataSize : Value → ℕ
  | .boolV _ => 1
  | .int8V _ => 1
  | .uint8V _ => 1
  | .int16V _ => 2
  | .uint16V _ => 2
  | .int32V _ => 4
  | .uint32V _ => 4
  | .int64V _ => 8
  | .uint64V _ => 8
  | .intV _ => 8
  | .uintV _ => 8
  | _ => 0

/-- The rendering of `%T` in `fmt.Errorf` for each modelled dynamic type
(only the unsupported ones can reach the error message). -/
def typeName : Value → String
  | .boolV _ => "bool"
  | .int8V _ => "int8"
  | .uint8V _ => "uint8"
  | .int16V _ => "int16"
  | .uint16V _ => "uint16"
  | .int32V _ => "int32"
  | .uint32V _ => "uint32"
  | .int64V _ => "int64"
  | .uint64V _ => "uint64"
  | .intV _ => "int"
  | .uintV _ => "uint"
  | .stringV _ => "string"
  | .timeV _ => "time.Time"
  | .float32V _ => "float32"
  | .float64V _ => "float64"
  | .nilV => "<nil>"
  | .stringSliceV => "[]string"
  | .mapStringStringV => "map[string]string"
  | .int64TypeV _ => "bytesort_test.int64Type"

/-- The first type switch in `encodeInt`: fill the `intDataSize`-byte buffer
`bs` with the value's big-endian bit pattern (`binary.BigEndian.PutUintN`
after Go's unsigned conversion; `bool` writes `0` or `1` into `bs[0]`;
`int` and `uint` go through `uint64`). Unreachable types give the empty
buffer (the caller has already returned an error for them). -/
def intBytes : Value → List ℕ
  | .boolV b => [if b then 1 else 0]
  | .int8V v => [toUintBits 1 v]
  | .uint8V v => [v]
  | .int16V v => beBytes 2 (toUintBits 2 v)
  | .uint16V v => beBytes 2 v
  | .int32V v => beBytes 4 (toUintBits 4 v)
  | .uint32V v => beBytes 4 v
  | .int64V v => beBytes 8 (toUintBits 8 v)
  | .uint64V v => beBytes 8 v
  | .intV v => beBytes 8 (toUintBits 8 v)
  | .uintV v => beBytes 8 v
  | _ => []

/-- The second type switch in `encodeInt`: for the signed kinds
(`int64, int32, int16, int8, int`) flip the first bit of the two's
complement, `bs[0] ^= 0x80`. -/
def signFlip : Value → List ℕ → List ℕ
  | .int8V _, bs => bs.modifyHead (· ^^^ 0x80)
  | .int16V _, bs => bs.modifyHead (· ^^^ 0x80)
  | .int32V _, bs => bs.modifyHead (· ^^^ 0x80)
  | .int64V _, bs => bs.modifyHead (· ^^^ 0x80)
  | .intV _, bs => bs.modifyHead (· ^^^ 0x80)
  | _, bs => bs

/-- `encodeInt` from the source: reject a type of size `0` with the
`unsupported type` error, otherwise encode big-endian and flip the sign
bit of the signed kinds. -/
def encodeInt (data : Value) : Except String (List ℕ) :=
  if intDataSize data = 0 then
    .error ("bytesort.Encode: unsupported type " ++ typeName data)
  else
    .ok (signFlip data (intBytes data))

/-- The shared body of `encodeFloat64`/`encodeFloat32` on a `w`-bit pattern:
`bits ^= -(bits >> (w-1)) | (1 << (w-1))` in `w`-bit unsigned arithmetic
(unary minus is taken modulo `2^w`). -/
def floatFlipBits (w bits : ℕ) : ℕ :=
  bits ^^^ (((2 ^ w - (bits >>> (w - 1))) % 2 ^ w) ||| (1 <<< (w - 1)))

/-- `encodeFloat64` from the source, on the bit pattern `bits` returned by
`math.Float64bits v` (the IEEE-754 binary64 representation of `v`). -/
def encodeFloat64 (bits : ℕ) : List ℕ := beBytes 8 (floatFlipBits 64 bits)

/-- `encodeFloat32` from the source, on the bit pattern `bits` returned by
`math.Float32bits v` (the IEEE-754 binary32 representation of `v`). -/
def encodeFloat32 (bits : ℕ) : List ℕ := beBytes 4 (floatFlipBits 32 bits)

/-- Modelled dependency (Go standard library, not part of this repository):
`time.Time.MarshalBinary`, version-1 format as in the Go releases the
repository targets.  Output is 15 bytes: a version tag `1`, the 8-byte
big-endian two's complement of the absolute second count, the 4-byte
big-endian nanosecond count, and the 2-byte big-endian two's complement of
the zone offset in minutes (`-1` denoting UTC).  A non-UTC location whose
offset is not a whole number of minutes, or whose minute offset is outside
`int16` or equal to the reserved `-1`, is rejected with an error. -/
def marshalBinary (t : GoTime) : Except String (List ℕ) :=
  if t.utc then
    .ok (1 :: (beBytes 8 (toUintBits 8 t.sec) ++ beBytes 4 (toUintBits 4 t.nsec)
          ++ beBytes 2 (toUintBits 2 (-1))))
  else if ¬ (60 : ℤ) ∣ t.offset then
    .error "Time.MarshalBinary: zone offset has fractional minute"
  else if t.offset / 60 < -32768 ∨ t.offset / 60 = -1 ∨ t.offset / 60 > 32767 then
    .error "Time.MarshalBinary: unexpected zone offset"
  else
    .ok (1 :: (beBytes 8 (toUintBits 8 t.sec) ++ beBytes 4 (toUintBits 4 t.nsec)
          ++ beBytes 2 (toUintBits 2 (t.offset / 60))))

/-- `encodeTime` from the source: marshal, wrap a failure with the
`bytesort.Encode: ` prefix, and on success strip the version byte and the
two trailing zone-offset bytes, `b[1 : len(b)-2]`. -/
def encodeTime (t : GoTime) : Except String (List ℕ) :=
  match marshalBinary t with
  | .error e => .error ("bytesort.Encode: " ++ e)
  | .ok b => .ok ((b.drop 1).take (b.length - 3))

/-- `Encode` from the source: dispatch on the dynamic type — strings, then
`time.Time`, `float64`, `float32`, and everything else through
`encodeInt`. -/
def Encode : Value → Except String (List ℕ)
  | .stringV s => .ok (encodeString s)
  | .timeV t => encodeTime t
  | .float64V bits => .ok (encodeFloat64 bits)
  | .float32V bits => .ok (encodeFloat32 bits)
  | v => encodeInt v

/-! ### IEEE-754 semantics of bit patterns

`Encode` receives floats through `math.Float64bits`/`math.Float32bits`, so
the natural order of the float category must be expressed on bit patterns.
A `w`-bit pattern with `eB` exponent bits and `mB` mantissa bits
(`w = eB + mB + 1`; binary64: `eB = 11, mB = 52`; binary32:
`eB = 8, mB = 23`) denotes, per IEEE-754:
sign `(-1)^s`, and magnitude `fman * 2^(1-bias-mB)` when the exponent field
is zero (subnormals and zeros), `(2^mB + fman) * 2^(fexp-bias-mB)` when it
is neither zero nor all-ones, infinity when it is all-ones with zero
mantissa, NaN otherwise. -/

/-- Sign bit of a `w`-bit pattern. -/
def fsign (w bits : ℕ) : Bool := bits >>> (w - 1) == 1

/-- Exponent field of a pattern (`eB` bits above the `mB` mantissa bits). -/
def fexp (eB mB bits : ℕ) : ℕ := (bits >>> mB) % 2 ^ eB

/-- Mantissa field of a pattern (`mB` low bits). -/
def fman (mB bits : ℕ) : ℕ := bits % 2 ^ mB

/-- The pattern denotes a NaN: all-ones exponent and nonzero mantissa. -/
def isNaNBits (eB mB bits : ℕ) : Prop :=
  fexp eB mB bits = 2 ^ eB - 1 ∧ fman mB bits ≠ 0

/-- Magnitude of a non-NaN pattern, in units of the smallest subnormal
(i.e. the denoted `|value| * 2^(bias+mB-1)`): `fman` for a zero exponent
field, `(2^mB + fman) * 2^(fexp - 1)` otherwise.  The all-ones exponent
(infinity, `fman = 0`) continues the pattern strictly above every finite
magnitude, so on non-NaN patterns this is exactly the IEEE magnitude
order with infinities at the ends. -/
def fmag (eB mB bits : ℕ) : ℕ :=
  if fexp eB mB bits = 0 then fman mB bits
  else (2 ^ mB + fman mB bits) * 2 ^ (fexp eB mB bits - 1)

/-- Signed rank of a non-NaN pattern: the IEEE-754 value order (`-0` and
`+0` both get rank `0`, so they compare equal, as `<=` on floats has it). -/
def frank (w eB mB bits : ℕ) : ℤ :=
  if fsign w bits then -(fmag eB mB bits : ℤ) else (fmag eB mB bits : ℤ)

/-- Rank refining `frank` by splitting the two zeros: every negative-sign
pattern is ranked strictly below every positive-sign one, in particular
`-0` strictly below `+0`.  On all other pairs it orders exactly like
`frank`. -/
def frankStrict (w eB mB bits : ℕ) : ℤ :=
  if fsign w bits then -1 - (fmag eB mB bits : ℤ) else (fmag eB mB bits : ℤ)

/-- IEEE-754 `<=` on binary64 bit patterns: false on NaN, value order
otherwise. -/
def f64le (a b : ℕ) : Prop :=
  ¬ isNaNBits 11 52 a ∧ ¬ isNaNBits 11 52 b ∧ frank 64 11 52 a ≤ frank 64 11 52 b

/-- Chronological order on `GoTime` (`time.Time.Before` / equality):
compare the absolute second counts, then the nanosecond parts. -/
def chronoLe (t u : GoTime) : Prop :=
  t.sec < u.sec ∨ (t.sec = u.sec ∧ t.nsec ≤ u.nsec)

/-- The condition under which the modelled `MarshalBinary` succeeds: UTC, or
a whole-minute offset whose minute count fits `int16` and avoids the
reserved `-1`. -/
def validZone (t : GoTime) : Prop :=
  t.utc = true ∨ ((60:ℤ) ∣ t.offset ∧ -32768 ≤ t.offset / 60
    ∧ t.offset / 60 ≠ -1 ∧ t.offset / 60 ≤ 32767)

/-- Decidability of the semantic predicates, so concrete instances can be
checked by evaluation. -/
instance (eB mB bits : ℕ) : Decidable (isNaNBits eB mB bits) := by
  unfold isNaNBits
  infer_instance

instance (a b : ℕ) : Decidable (f64le a b) := by
  unfold f64le
  infer_instance

instance (t u : GoTime) : Decidable (chronoLe t u) := by
  unfold chronoLe
  infer_instance

instance (t : GoTime) : Decidable (validZone t) := by
  unfold validZone
  infer_instance

end Bytesort

namespace Bytesort

/-! ### Facts about `lexLe` and `beBytes` -/

theorem lexLe_refl (l : List ℕ) : lexLe l l = true := by
  induction l with
  | nil => rfl
  | cons a as ih => simp [lexLe, ih]

theorem beBytes_length (w x : ℕ) : (beBytes w x).length = w := by
  induction w generalizing x with
  | zero => rfl
  | succ w ih => simp [beBytes, ih]

theorem beBytes_mod (w x : ℕ) : beBytes w (x % 2 ^ (8 * w)) = beBytes w x := by
  induction w generalizing x with
  | zero => rfl
  | succ w ih =>
    simp only [beBytes, Nat.shiftRight_eq_div_pow, List.cons.injEq]
    have h8 : (2 : ℕ) ^ (8 * (w + 1)) = 2 ^ (8 * w) * 256 := by
      rw [show 8 * (w + 1) = 8 * w + 8 by omega, pow_add]; norm_num
    refine ⟨?_, ?_⟩
    · rw [h8, Nat.mod_mul_right_div_self, Nat.mod_mod_of_dvd _ dvd_rfl]
    · have hdvd : (2 : ℕ) ^ (8 * w) ∣ 2 ^ (8 * (w + 1)) :=
        pow_dvd_pow 2 (by omega)
      calc beBytes w (x % 2 ^ (8 * (w + 1)))
          = beBytes w (x % 2 ^ (8 * (w + 1)) % 2 ^ (8 * w)) := (ih _).symm
        _ = beBytes w (x % 2 ^ (8 * w)) := by rw [Nat.mod_mod_of_dvd _ hdvd]
        _ = beBytes w x := ih _

theorem lexLe_cons (a b : ℕ) (as bs : List ℕ) :
    lexLe (a :: as) (b :: bs)
      = if a < b then true else if a = b then lexLe as bs else false := rfl

theorem beBytes_le_iff {w a b : ℕ} (ha : a < 2 ^ (8 * w)) (hb : b < 2 ^ (8 * w)) :
    (lexLe (beBytes w a) (beBytes w b) = true) ↔ a ≤ b := by
  induction w generalizing a b with
  | zero =>
    have ha0 : a = 0 := by simpa using ha
    have hb0 : b = 0 := by simpa using hb
    subst_vars
    simp [beBytes, lexLe]
  | succ w ih =>
    have hpow : (2 : ℕ) ^ (8 * (w + 1)) = 2 ^ (8 * w) * 256 := by
      rw [show 8 * (w + 1) = 8 * w + 8 by omega, pow_add]; norm_num
    have hqa : a / 2 ^ (8 * w) < 256 := Nat.div_lt_of_lt_mul (hpow ▸ ha)
    have hqb : b / 2 ^ (8 * w) < 256 := Nat.div_lt_of_lt_mul (hpow ▸ hb)
    have htail : ∀ x : ℕ, beBytes w x = beBytes w (x % 2 ^ (8 * w)) :=
      fun x => (beBytes_mod w x).symm
    simp only [beBytes, Nat.shiftRight_eq_div_pow, lexLe_cons,
      Nat.mod_eq_of_lt hqa, Nat.mod_eq_of_lt hqb]
    rcases Nat.lt_trichotomy (a / 2 ^ (8 * w)) (b / 2 ^ (8 * w)) with hlt | heq | hgt
    · have hab : a < b := Nat.lt_of_div_lt_div hlt
      rw [if_pos hlt]
      simpa using Nat.le_of_lt hab
    · have hmod : (lexLe (beBytes w a) (beBytes w b) = true) ↔
          a % 2 ^ (8 * w) ≤ b % 2 ^ (8 * w) := by
        rw [htail a, htail b]
        exact ih (Nat.mod_lt _ (Nat.pos_pow_of_pos _ (by norm_num)))
          (Nat.mod_lt _ (Nat.pos_pow_of_pos _ (by norm_num)))
      have hsplit : a % 2 ^ (8 * w) ≤ b % 2 ^ (8 * w) ↔ a ≤ b := by
        have hda := Nat.div_add_mod a (2 ^ (8 * w))
        have hdb := Nat.div_add_mod b (2 ^ (8 * w))
        constructor
        · intro h
          calc a = 2 ^ (8 * w) * (a / 2 ^ (8 * w)) + a % 2 ^ (8 * w) := hda.symm
            _ ≤ 2 ^ (8 * w) * (b / 2 ^ (8 * w)) + b % 2 ^ (8 * w) := by
                rw [heq]; exact Nat.add_le_add_left h _
            _ = b := hdb
        · intro h
          by_contra hc
          have hc' : b % 2 ^ (8 * w) < a % 2 ^ (8 * w) := by omega
          have : b < a := by
            calc b = 2 ^ (8 * w) * (b / 2 ^ (8 * w)) + b % 2 ^ (8 * w) := hdb.symm
              _ < 2 ^ (8 * w) * (a / 2 ^ (8 * w)) + a % 2 ^ (8 * w) := by
                  rw [heq]; exact Nat.add_lt_add_left hc' _
              _ = a := hda
          omega
      rw [if_neg (by omega), if_pos heq, hmod, hsplit]
    · have hab : b < a := Nat.lt_of_div_lt_div hgt
      rw [if_neg (by omega), if_neg (by omega)]
      simp
      omega

end Bytesort

namespace Bytesort

theorem beBytes_append {w1 w2 a b : ℕ} (ha : a < 2 ^ (8 * w1)) (hb : b < 2 ^ (8 * w2)) :
    beBytes (w1 + w2) (a * 2 ^ (8 * w2) + b) = beBytes w1 a ++ beBytes w2 b := by
  induction w1 generalizing a with
  | zero =>
    have ha0 : a = 0 := by simpa using ha
    subst ha0
    simp [beBytes]
  | succ w1 ih =>
    have hsucc : w1 + 1 + w2 = (w1 + w2) + 1 := by omega
    rw [hsucc]
    have hN : (2:ℕ) ^ (8 * (w1 + w2)) = 2 ^ (8 * w1) * 2 ^ (8 * w2) := by
      rw [← pow_add]; ring_nf
    have hb2 : (0:ℕ) < 2 ^ (8 * w2) := Nat.pos_pow_of_pos _ (by norm_num)
    have h1 : (a * 2 ^ (8 * w2) + b) / 2 ^ (8 * w2) = a := by
      rw [add_comm, Nat.add_mul_div_right _ _ hb2, Nat.div_eq_of_lt hb]
      omega
    have hhead : (a * 2 ^ (8 * w2) + b) / 2 ^ (8 * (w1 + w2)) = a / 2 ^ (8 * w1) := by
      rw [hN, mul_comm ((2:ℕ) ^ (8 * w1)), ← Nat.div_div_eq_div_mul, h1]
    have ha' : a % 2 ^ (8 * w1) < 2 ^ (8 * w1) := Nat.mod_lt _ (Nat.pos_pow_of_pos _ (by norm_num))
    have hXmod : (a * 2 ^ (8 * w2) + b) % 2 ^ (8 * (w1 + w2))
        = a % 2 ^ (8 * w1) * 2 ^ (8 * w2) + b := by
      have hdecomp : a * 2 ^ (8 * w2) + b
          = (a % 2 ^ (8 * w1) * 2 ^ (8 * w2) + b) + (a / 2 ^ (8 * w1)) * 2 ^ (8 * (w1 + w2)) := by
        conv_lhs => rw [← Nat.div_add_mod a (2 ^ (8 * w1))]
        rw [hN]
        ring
      have hrem : a % 2 ^ (8 * w1) * 2 ^ (8 * w2) + b < 2 ^ (8 * (w1 + w2)) := by
        rw [hN]
        calc a % 2 ^ (8 * w1) * 2 ^ (8 * w2) + b
            ≤ (2 ^ (8 * w1) - 1) * 2 ^ (8 * w2) + (2 ^ (8 * w2) - 1) := by
              have h2 : a % 2 ^ (8 * w1) ≤ 2 ^ (8 * w1) - 1 := by omega
              have h3 : b ≤ 2 ^ (8 * w2) - 1 := by omega
              exact Nat.add_le_add (Nat.mul_le_mul_right _ h2) h3
          _ < 2 ^ (8 * w1) * 2 ^ (8 * w2) := by
              have h4 : (1:ℕ) ≤ 2 ^ (8 * w1) := Nat.one_le_two_pow
              have h5 : (1:ℕ) ≤ 2 ^ (8 * w2) := Nat.one_le_two_pow
              calc (2 ^ (8 * w1) - 1) * 2 ^ (8 * w2) + (2 ^ (8 * w2) - 1)
                  < (2 ^ (8 * w1) - 1) * 2 ^ (8 * w2) + 2 ^ (8 * w2) := by omega
                _ = 2 ^ (8 * w1) * 2 ^ (8 * w2) := by
                    rw [Nat.sub_one_mul]
                    have h6 : (2:ℕ) ^ (8 * w2) ≤ 2 ^ (8 * w1) * 2 ^ (8 * w2) :=
                      Nat.le_mul_of_pos_left _ (Nat.pos_pow_of_pos _ (by norm_num))
                    omega
      rw [hdecomp, Nat.add_mul_mod_self_right, Nat.mod_eq_of_lt hrem]
    have htails : beBytes (w1 + w2) (a * 2 ^ (8 * w2) + b)
        = beBytes w1 a ++ beBytes w2 b := by
      calc beBytes (w1 + w2) (a * 2 ^ (8 * w2) + b)
          = beBytes (w1 + w2) ((a * 2 ^ (8 * w2) + b) % 2 ^ (8 * (w1 + w2))) :=
            (beBytes_mod _ _).symm
        _ = beBytes (w1 + w2) (a % 2 ^ (8 * w1) * 2 ^ (8 * w2) + b) := by rw [hXmod]
        _ = beBytes w1 (a % 2 ^ (8 * w1)) ++ beBytes w2 b := ih ha'
        _ = beBytes w1 a ++ beBytes w2 b := by rw [beBytes_mod]
    simp only [beBytes, Nat.shiftRight_eq_div_pow, List.cons_append, htails, hhead]

/-! ### Bit-arithmetic facts used to read the xor transforms arithmetically -/

theorem xor_two_pow {k a : ℕ} (h : a < 2 ^ k) : a ^^^ 2 ^ k = a + 2 ^ k := by
  induction k generalizing a with
  | zero =>
    have ha0 : a = 0 := by omega
    subst ha0
    decide
  | succ k ih =>
    have htail : a >>> 1 < 2 ^ k := by
      rw [Nat.shiftRight_eq_div_pow]
      have hpow : (2:ℕ) ^ (k+1) = 2 ^ k * 2 := pow_succ 2 k
      omega
    have hb' : 2 * (a >>> 1) + (a.testBit 0).toNat = a := by
      have hbit := Nat.bit_testBit_zero_shiftRight_one a
      rw [Nat.bit_val] at hbit
      exact hbit
    have hx : a ^^^ 2 ^ (k + 1) = Nat.bit (a.testBit 0) ((a >>> 1) ^^^ 2 ^ k) := by
      conv_lhs => rw [← Nat.bit_testBit_zero_shiftRight_one a]
      have h2 : (2 : ℕ) ^ (k + 1) = Nat.bit false (2 ^ k) := by
        rw [Nat.bit_val, pow_succ]
        simp
        ring
      rw [h2, Nat.xor_bit]
      cases a.testBit 0 <;> rfl
    rw [hx, ih htail, Nat.bit_val]
    have hpow : (2:ℕ) ^ (k+1) = 2 ^ k * 2 := pow_succ 2 k
    omega

theorem xor_ones {k a : ℕ} (h : a < 2 ^ k) : a ^^^ (2 ^ k - 1) = 2 ^ k - 1 - a := by
  induction k generalizing a with
  | zero =>
    have ha0 : a = 0 := by omega
    subst ha0
    decide
  | succ k ih =>
    have hones : (2:ℕ) ^ (k + 1) - 1 = (2 ^ k - 1) ^^^ 2 ^ k := by
      rw [xor_two_pow (by have := Nat.one_le_two_pow (n := k); omega)]
      have hpow : (2:ℕ) ^ (k+1) = 2 ^ k * 2 := pow_succ 2 k
      omega
    by_cases hs : a < 2 ^ k
    · have h1 : a ^^^ (2 ^ k - 1) = 2 ^ k - 1 - a := ih hs
      have h2 : 2 ^ k - 1 - a < 2 ^ k := by have := Nat.one_le_two_pow (n := k); omega
      calc a ^^^ (2 ^ (k+1) - 1) = a ^^^ ((2 ^ k - 1) ^^^ 2 ^ k) := by rw [hones]
        _ = (a ^^^ (2 ^ k - 1)) ^^^ 2 ^ k := by rw [Nat.xor_assoc]
        _ = (2 ^ k - 1 - a) ^^^ 2 ^ k := by rw [h1]
        _ = 2 ^ k - 1 - a + 2 ^ k := xor_two_pow h2
        _ = 2 ^ (k+1) - 1 - a := by
            have hpow : (2:ℕ) ^ (k+1) = 2 ^ k * 2 := pow_succ 2 k
            omega
    · have ha' : a - 2 ^ k < 2 ^ k := by
        have hpow : (2:ℕ) ^ (k+1) = 2 ^ k * 2 := pow_succ 2 k
        omega
      have haeq : a = (a - 2 ^ k) ^^^ 2 ^ k := by
        rw [xor_two_pow ha']
        omega
      have h1 : (a - 2 ^ k) ^^^ (2 ^ k - 1) = 2 ^ k - 1 - (a - 2 ^ k) := ih ha'
      calc a ^^^ (2 ^ (k+1) - 1)
          = ((a - 2 ^ k) ^^^ 2 ^ k) ^^^ ((2 ^ k - 1) ^^^ 2 ^ k) := by rw [← haeq, hones]
        _ = (a - 2 ^ k) ^^^ (2 ^ k ^^^ ((2 ^ k - 1) ^^^ 2 ^ k)) := by rw [Nat.xor_assoc]
        _ = (a - 2 ^ k) ^^^ (2 ^ k - 1) := by
            rw [Nat.xor_comm (2 ^ k - 1) (2 ^ k), Nat.xor_cancel_left]
        _ = 2 ^ k - 1 - (a - 2 ^ k) := h1
        _ = 2 ^ (k+1) - 1 - a := by
            have hpow : (2:ℕ) ^ (k+1) = 2 ^ k * 2 := pow_succ 2 k
            omega

theorem lor_ones {k a : ℕ} (h : a < 2 ^ k) : (2 ^ k - 1) ||| a = 2 ^ k - 1 := by
  induction k generalizing a with
  | zero =>
    have ha0 : a = 0 := by omega
    subst ha0
    decide
  | succ k ih =>
    have hbit := Nat.bit_testBit_zero_shiftRight_one a
    have hones : (2:ℕ) ^ (k + 1) - 1 = Nat.bit true (2 ^ k - 1) := by
      rw [Nat.bit_val]
      have := Nat.one_le_two_pow (n := k)
      have hpow : (2:ℕ) ^ (k+1) = 2 ^ k * 2 := pow_succ 2 k
      simp
      omega
    have htail : a >>> 1 < 2 ^ k := by
      rw [Nat.shiftRight_eq_div_pow]
      have hpow : (2:ℕ) ^ (k+1) = 2 ^ k * 2 := pow_succ 2 k
      omega
    calc (2 ^ (k+1) - 1) ||| a
        = Nat.bit true (2 ^ k - 1) ||| Nat.bit (a.testBit 0) (a >>> 1) := by rw [← hones, hbit]
      _ = Nat.bit (true || a.testBit 0) ((2 ^ k - 1) ||| (a >>> 1)) := Nat.lor_bit _ _ _ _
      _ = Nat.bit true (2 ^ k - 1) := by rw [Bool.true_or, ih htail]
      _ = 2 ^ (k+1) - 1 := hones.symm

theorem byte_xor_128 : ∀ h < 256, h ^^^ 128 = if h < 128 then h + 128 else h - 128 := by
  decide

end Bytesort

namespace Bytesort

/-! ### Reading the signed-integer sign-bit flip as an offset encoding -/

theorem toUintBits_lt (w : ℕ) (v : ℤ) : toUintBits w v < 2 ^ (8 * w) := by
  unfold toUintBits
  have hpos : (0:ℤ) < 2 ^ (8 * w) := by positivity
  have h0 := Int.emod_nonneg v (ne_of_gt hpos)
  have hlt := Int.emod_lt_of_pos v hpos
  have hcast : (((2:ℕ) ^ (8 * w) : ℕ) : ℤ) = (2:ℤ) ^ (8 * w) := by push_cast; ring
  omega

theorem flip_head_eq {w u : ℕ} (hu : u < 2 ^ (8 * (w + 1))) :
    (beBytes (w + 1) u).modifyHead (· ^^^ 0x80)
      = beBytes (w + 1)
          (if u < 2 ^ (8 * w + 7) then u + 2 ^ (8 * w + 7) else u - 2 ^ (8 * w + 7)) := by
  have hp7 : (2:ℕ) ^ (8 * w + 7) = 2 ^ (8 * w) * 128 := by rw [pow_add]; norm_num
  have hp8 : (2:ℕ) ^ (8 * (w + 1)) = 2 ^ (8 * w) * 256 := by
    rw [show 8 * (w + 1) = 8 * w + 8 by omega, pow_add]; norm_num
  have hb2 : (0:ℕ) < 2 ^ (8 * w) := Nat.pos_pow_of_pos _ (by norm_num)
  have hh : u / 2 ^ (8 * w) < 256 := Nat.div_lt_of_lt_mul (hp8 ▸ hu)
  by_cases hs : u < 2 ^ (8 * w + 7)
  · rw [if_pos hs]
    have hh128 : u / 2 ^ (8 * w) < 128 := Nat.div_lt_of_lt_mul (hp7 ▸ hs)
    have hflip : u / 2 ^ (8 * w) ^^^ 128 = u / 2 ^ (8 * w) + 128 := by
      rw [byte_xor_128 _ hh, if_pos hh128]
    have hhead : (u + 2 ^ (8 * w + 7)) / 2 ^ (8 * w) = u / 2 ^ (8 * w) + 128 := by
      rw [hp7, mul_comm ((2:ℕ) ^ (8 * w)) 128, Nat.add_mul_div_right _ _ hb2]
    have htail : beBytes w (u + 2 ^ (8 * w + 7)) = beBytes w u := by
      have hmod : (u + 2 ^ (8 * w + 7)) % 2 ^ (8 * w) = u % 2 ^ (8 * w) := by
        rw [hp7, mul_comm ((2:ℕ) ^ (8 * w)) 128, Nat.add_mul_mod_self_right]
      rw [← beBytes_mod w (u + 2 ^ (8 * w + 7)), hmod, beBytes_mod]
    simp only [beBytes, Nat.shiftRight_eq_div_pow, List.modifyHead, hhead, htail,
      Nat.mod_eq_of_lt hh, Nat.mod_eq_of_lt (show u / 2 ^ (8 * w) + 128 < 256 by omega),
      hflip]
  · rw [if_neg hs]
    push_neg at hs
    have hh128 : 128 ≤ u / 2 ^ (8 * w) := by
      rw [hp7] at hs
      exact (Nat.le_div_iff_mul_le hb2).mpr (by omega)
    have hflip : u / 2 ^ (8 * w) ^^^ 128 = u / 2 ^ (8 * w) - 128 := by
      rw [byte_xor_128 _ hh, if_neg (by omega)]
    have hback : u - 2 ^ (8 * w + 7) + 128 * 2 ^ (8 * w) = u := by
      rw [hp7] at hs ⊢
      omega
    have hhead : (u - 2 ^ (8 * w + 7)) / 2 ^ (8 * w) = u / 2 ^ (8 * w) - 128 := by
      have h2 : (u - 2 ^ (8 * w + 7) + 128 * 2 ^ (8 * w)) / 2 ^ (8 * w)
          = (u - 2 ^ (8 * w + 7)) / 2 ^ (8 * w) + 128 :=
        Nat.add_mul_div_right _ _ hb2
      rw [hback] at h2
      omega
    have hheadlt : u / 2 ^ (8 * w) - 128 < 256 := by omega
    have htail : beBytes w (u - 2 ^ (8 * w + 7)) = beBytes w u := by
      have hmod : (u - 2 ^ (8 * w + 7)) % 2 ^ (8 * w) = u % 2 ^ (8 * w) := by
        conv_rhs => rw [← hback]
        rw [Nat.add_mul_mod_self_right]
      rw [← beBytes_mod w (u - 2 ^ (8 * w + 7)), hmod, beBytes_mod]
    simp only [beBytes, Nat.shiftRight_eq_div_pow, List.modifyHead, hhead, htail,
      Nat.mod_eq_of_lt hh, Nat.mod_eq_of_lt hheadlt, hflip]

theorem toUintBits_shift {w : ℕ} {v : ℤ} (hw : 1 ≤ w)
    (hlo : -(2 ^ (8 * w - 1)) ≤ v) (hhi : v < 2 ^ (8 * w - 1)) :
    (if toUintBits w v < 2 ^ (8 * w - 1) then toUintBits w v + 2 ^ (8 * w - 1)
     else toUintBits w v - 2 ^ (8 * w - 1)) = (v + 2 ^ (8 * w - 1)).toNat := by
  unfold toUintBits
  have hNeq : 8 * w = (8 * w - 1) + 1 := by omega
  have hsplit : ((2:ℤ) ^ (8 * w)) = 2 ^ (8 * w - 1) * 2 := by
    conv_lhs => rw [hNeq]
    rw [pow_succ]
  have hcast : (((2:ℕ) ^ (8 * w - 1) : ℕ) : ℤ) = (2:ℤ) ^ (8 * w - 1) := by push_cast; ring
  by_cases hv : 0 ≤ v
  · have hmod : v % 2 ^ (8 * w) = v := Int.emod_eq_of_lt hv (by omega)
    rw [hmod, if_pos (by omega)]
    omega
  · push_neg at hv
    have hmod : v % 2 ^ (8 * w) = v + 2 ^ (8 * w) := by
      have h1 : (v + 2 ^ (8 * w) * 1) % 2 ^ (8 * w) = v % 2 ^ (8 * w) :=
        Int.add_mul_emod_self_left v (2 ^ (8 * w)) 1
      rw [mul_one] at h1
      rw [← h1, Int.emod_eq_of_lt (by omega) (by omega)]
    rw [hmod, if_neg (by omega)]
    omega

end Bytesort

namespace Bytesort

/-- The sign-bit flip on the two's-complement big-endian bytes is exactly the
offset-binary (excess-`2^(8w-1)`) big-endian encoding. -/
theorem signed_bytes_eq {w : ℕ} {v : ℤ} (hw : 1 ≤ w)
    (hlo : -(2 ^ (8 * w - 1)) ≤ v) (hhi : v < 2 ^ (8 * w - 1)) :
    (beBytes w (toUintBits w v)).modifyHead (· ^^^ 0x80)
      = beBytes w (v + 2 ^ (8 * w - 1)).toNat := by
  obtain ⟨w', rfl⟩ : ∃ w', w = w' + 1 := ⟨w - 1, by omega⟩
  have h71 : 8 * (w' + 1) - 1 = 8 * w' + 7 := by omega
  have hshift := toUintBits_shift (w := w' + 1) hw hlo hhi
  rw [h71] at hshift
  rw [flip_head_eq (toUintBits_lt (w' + 1) v), h71, hshift]

/-- The float transform read arithmetically: a clear sign bit turns into an
addition of the sign mask, a set sign bit into a full complement. -/
theorem floatFlip_eq {w bits : ℕ} (hw : 1 ≤ w) (h : bits < 2 ^ w) :
    floatFlipBits w bits
      = if bits < 2 ^ (w - 1) then bits + 2 ^ (w - 1) else 2 ^ w - 1 - bits := by
  unfold floatFlipBits
  have hw1 : w - 1 + 1 = w := by omega
  have hpow : (2:ℕ) ^ w = 2 ^ (w - 1) * 2 := by
    conv_lhs => rw [← hw1]
    rw [pow_succ]
  rw [Nat.shiftRight_eq_div_pow, Nat.shiftLeft_eq, one_mul]
  by_cases hs : bits < 2 ^ (w - 1)
  · rw [if_pos hs, Nat.div_eq_of_lt hs, Nat.sub_zero, Nat.mod_self, Nat.zero_or]
    exact xor_two_pow hs
  · rw [if_neg hs]
    push_neg at hs
    have hdiv : bits / 2 ^ (w - 1) = 1 :=
      Nat.div_eq_of_lt_le (by omega) (by omega)
    rw [hdiv, Nat.mod_eq_of_lt (by omega), lor_ones (by omega)]
    exact xor_ones h

end Bytesort

namespace Bytesort

theorem fmag_strictMono {eB mB p q : ℕ} (hq : q < 2 ^ (eB + mB)) (hpq : p < q) :
    fmag eB mB p < fmag eB mB q := by
  have hm2 : (0:ℕ) < 2 ^ mB := Nat.pos_pow_of_pos _ (by norm_num)
  have hpow : (2:ℕ) ^ (eB + mB) = 2 ^ mB * 2 ^ eB := by rw [← pow_add]; ring_nf
  have hep : p / 2 ^ mB < 2 ^ eB := by
    apply Nat.div_lt_of_lt_mul
    calc p < q := hpq
      _ < 2 ^ (eB + mB) := hq
      _ = 2 ^ mB * 2 ^ eB := hpow
  have heq' : q / 2 ^ mB < 2 ^ eB := Nat.div_lt_of_lt_mul (hpow ▸ hq)
  have hfep : fexp eB mB p = p / 2 ^ mB := by
    unfold fexp
    rw [Nat.shiftRight_eq_div_pow, Nat.mod_eq_of_lt hep]
  have hfeq : fexp eB mB q = q / 2 ^ mB := by
    unfold fexp
    rw [Nat.shiftRight_eq_div_pow, Nat.mod_eq_of_lt heq']
  have hmp : fman mB p = p % 2 ^ mB := rfl
  have hmq : fman mB q = q % 2 ^ mB := rfl
  have hde : p / 2 ^ mB ≤ q / 2 ^ mB := Nat.div_le_div_right (le_of_lt hpq)
  rcases lt_or_eq_of_le hde with hlt | heqd
  · -- exponent fields differ: magnitude blocks are strictly separated
    have hupper : fmag eB mB p < 2 ^ mB * 2 ^ (p / 2 ^ mB) := by
      unfold fmag
      rw [hfep, hmp]
      by_cases h0 : p / 2 ^ mB = 0
      · rw [if_pos h0, h0, pow_zero, mul_one]
        exact Nat.mod_lt _ hm2
      · rw [if_neg h0]
        have hstep : (2 ^ mB + p % 2 ^ mB) * 2 ^ (p / 2 ^ mB - 1)
            < (2 * 2 ^ mB) * 2 ^ (p / 2 ^ mB - 1) := by
          have hman2 : p % 2 ^ mB < 2 ^ mB := Nat.mod_lt _ hm2
          exact (Nat.mul_lt_mul_right (Nat.pos_pow_of_pos _ (by norm_num))).mpr (by omega)
        have hcol : (2 * 2 ^ mB) * 2 ^ (p / 2 ^ mB - 1) = 2 ^ mB * 2 ^ (p / 2 ^ mB) := by
          have hsq : (2:ℕ) ^ (p / 2 ^ mB) = 2 ^ (p / 2 ^ mB - 1) * 2 := by
            rw [← pow_succ]
            congr 1
            omega
          rw [hsq]
          ring
        calc (2 ^ mB + p % 2 ^ mB) * 2 ^ (p / 2 ^ mB - 1)
            < (2 * 2 ^ mB) * 2 ^ (p / 2 ^ mB - 1) := hstep
          _ = 2 ^ mB * 2 ^ (p / 2 ^ mB) := hcol
    have hlower : 2 ^ mB * 2 ^ (p / 2 ^ mB) ≤ fmag eB mB q := by
      unfold fmag
      rw [hfeq, hmq]
      have h0 : q / 2 ^ mB ≠ 0 := by omega
      rw [if_neg h0]
      calc 2 ^ mB * 2 ^ (p / 2 ^ mB)
          ≤ 2 ^ mB * 2 ^ (q / 2 ^ mB - 1) :=
            Nat.mul_le_mul_left _ (Nat.pow_le_pow_right (by norm_num) (by omega))
        _ ≤ (2 ^ mB + q % 2 ^ mB) * 2 ^ (q / 2 ^ mB - 1) :=
            Nat.mul_le_mul_right _ (by omega)
    exact lt_of_lt_of_le hupper hlower
  · -- same exponent field, so the mantissas decide
    have hman : p % 2 ^ mB < q % 2 ^ mB := by
      have hdp := Nat.div_add_mod p (2 ^ mB)
      have hdq := Nat.div_add_mod q (2 ^ mB)
      by_contra hc
      push_neg at hc
      have : q ≤ p := by
        calc q = 2 ^ mB * (q / 2 ^ mB) + q % 2 ^ mB := hdq.symm
          _ ≤ 2 ^ mB * (p / 2 ^ mB) + p % 2 ^ mB := by
              rw [heqd]
              exact Nat.add_le_add_left hc _
          _ = p := hdp
      omega
    unfold fmag
    rw [hfep, hfeq, hmp, hmq, ← heqd]
    by_cases h0 : p / 2 ^ mB = 0
    · simp only [if_pos h0]
      exact hman
    · simp only [if_neg h0]
      exact (Nat.mul_lt_mul_right (Nat.pos_pow_of_pos _ (by norm_num))).mpr (by omega)

theorem fmag_le_iff {eB mB p q : ℕ} (hp : p < 2 ^ (eB + mB)) (hq : q < 2 ^ (eB + mB)) :
    fmag eB mB p ≤ fmag eB mB q ↔ p ≤ q := by
  constructor
  · intro h
    by_contra hc
    push_neg at hc
    exact absurd h (not_le_of_lt (fmag_strictMono hp hc))
  · intro h
    rcases lt_or_eq_of_le h with hlt | heq'
    · exact le_of_lt (fmag_strictMono hq hlt)
    · subst heq'
      exact le_refl _

end Bytesort

namespace Bytesort

theorem fsign_false {w a : ℕ} (h : a < 2 ^ (w - 1)) : fsign w a = false := by
  unfold fsign
  rw [Nat.shiftRight_eq_div_pow, Nat.div_eq_of_lt h]
  rfl

theorem fsign_true {w a : ℕ} (hw : 1 ≤ w) (hlo : 2 ^ (w - 1) ≤ a) (hhi : a < 2 ^ w) :
    fsign w a = true := by
  unfold fsign
  rw [Nat.shiftRight_eq_div_pow]
  have h2 : (2:ℕ) ^ w = 2 ^ (w - 1) * 2 := by
    conv_lhs => rw [show w = w - 1 + 1 by omega]
    rw [pow_succ]
  have hd : a / 2 ^ (w - 1) = 1 := Nat.div_eq_of_lt_le (by omega) (by omega)
  rw [hd]
  rfl

theorem fman_msb_sub {eB mB a : ℕ} (hlo : 2 ^ (eB + mB) ≤ a) :
    fman mB a = fman mB (a - 2 ^ (eB + mB)) := by
  unfold fman
  have hM : (2:ℕ) ^ (eB + mB) = 2 ^ mB * 2 ^ eB := by rw [← pow_add]; ring_nf
  conv_lhs =>
    rw [show a = (a - 2 ^ (eB + mB)) + 2 ^ mB * 2 ^ eB from by rw [← hM]; omega]
  rw [Nat.add_mul_mod_self_left]

theorem fexp_msb_sub {eB mB a : ℕ} (hlo : 2 ^ (eB + mB) ≤ a) :
    fexp eB mB a = fexp eB mB (a - 2 ^ (eB + mB)) := by
  unfold fexp
  rw [Nat.shiftRight_eq_div_pow, Nat.shiftRight_eq_div_pow]
  have hM : (2:ℕ) ^ (eB + mB) = 2 ^ mB * 2 ^ eB := by rw [← pow_add]; ring_nf
  have hdiv : a / 2 ^ mB = (a - 2 ^ (eB + mB)) / 2 ^ mB + 2 ^ eB := by
    conv_lhs =>
      rw [show a = (a - 2 ^ (eB + mB)) + 2 ^ mB * 2 ^ eB from by rw [← hM]; omega]
    rw [Nat.add_mul_div_left _ _ (Nat.pos_pow_of_pos _ (by norm_num))]
  rw [hdiv, Nat.add_mod_right]

theorem fmag_msb_sub {eB mB a : ℕ} (hlo : 2 ^ (eB + mB) ≤ a) :
    fmag eB mB a = fmag eB mB (a - 2 ^ (eB + mB)) := by
  unfold fmag
  rw [fexp_msb_sub hlo, fman_msb_sub hlo]

/-- The float bit transform is an order isomorphism between the
sign-magnitude rank (`-0` strictly below `+0`) and plain unsigned order of
the transformed word. -/
theorem frankStrict_le_iff {eB mB a b : ℕ}
    (ha : a < 2 ^ (eB + mB + 1)) (hb : b < 2 ^ (eB + mB + 1)) :
    (frankStrict (eB + mB + 1) eB mB a ≤ frankStrict (eB + mB + 1) eB mB b)
      ↔ floatFlipBits (eB + mB + 1) a ≤ floatFlipBits (eB + mB + 1) b := by
  have hM : (0:ℕ) < 2 ^ (eB + mB) := Nat.pos_pow_of_pos _ (by norm_num)
  have h2M : (2:ℕ) ^ (eB + mB + 1) = 2 * 2 ^ (eB + mB) := by rw [pow_succ]; ring
  have hflipa := floatFlip_eq (by omega) ha
  have hflipb := floatFlip_eq (by omega) hb
  rw [Nat.add_sub_cancel] at hflipa hflipb
  unfold frankStrict
  by_cases hsa : a < 2 ^ (eB + mB) <;> by_cases hsb : b < 2 ^ (eB + mB)
  · -- both positive sign
    rw [fsign_false (by rw [Nat.add_sub_cancel]; exact hsa),
      fsign_false (by rw [Nat.add_sub_cancel]; exact hsb),
      hflipa, hflipb, if_pos hsa, if_pos hsb]
    simp only [Bool.false_eq_true, if_false]
    rw [Nat.cast_le, fmag_le_iff hsa hsb]
    omega
  · -- a positive, b negative: both sides false
    rw [fsign_false (by rw [Nat.add_sub_cancel]; exact hsa),
      fsign_true (by omega) (by rw [Nat.add_sub_cancel]; omega) hb,
      hflipa, hflipb, if_pos hsa, if_neg hsb]
    simp only [Bool.false_eq_true, if_false, if_true]
    constructor
    · intro h
      exfalso
      have h1 : (0:ℤ) ≤ (fmag eB mB a : ℤ) := Int.natCast_nonneg _
      have h2 : (0:ℤ) ≤ (fmag eB mB b : ℤ) := Int.natCast_nonneg _
      omega
    · intro h
      exfalso
      omega
  · -- a negative, b positive: both sides true
    rw [fsign_true (by omega) (by rw [Nat.add_sub_cancel]; omega) ha,
      fsign_false (by rw [Nat.add_sub_cancel]; exact hsb),
      hflipa, hflipb, if_neg hsa, if_pos hsb]
    simp only [Bool.false_eq_true, if_false, if_true]
    constructor
    · intro h
      omega
    · intro h
      have h1 : (0:ℤ) ≤ (fmag eB mB a : ℤ) := Int.natCast_nonneg _
      have h2 : (0:ℤ) ≤ (fmag eB mB b : ℤ) := Int.natCast_nonneg _
      omega
  · -- both negative sign
    rw [fsign_true (by omega) (by rw [Nat.add_sub_cancel]; omega) ha,
      fsign_true (by omega) (by rw [Nat.add_sub_cancel]; omega) hb,
      hflipa, hflipb, if_neg hsa, if_neg hsb]
    simp only [if_true]
    rw [fmag_msb_sub (by omega), fmag_msb_sub (show 2 ^ (eB + mB) ≤ b by omega)]
    have hiff : fmag eB mB (b - 2 ^ (eB + mB)) ≤ fmag eB mB (a - 2 ^ (eB + mB))
        ↔ b - 2 ^ (eB + mB) ≤ a - 2 ^ (eB + mB) := fmag_le_iff (by omega) (by omega)
    constructor
    · intro h
      have h1 : fmag eB mB (b - 2 ^ (eB + mB)) ≤ fmag eB mB (a - 2 ^ (eB + mB)) := by omega
      have h2 := hiff.mp h1
      omega
    · intro h
      have h2 : b - 2 ^ (eB + mB) ≤ a - 2 ^ (eB + mB) := by omega
      have h1 := hiff.mpr h2
      omega

end Bytesort

namespace Bytesort

/-! ### Structure of the time encoding -/

theorem marshalBinary_ok {t : GoTime} {b : List ℕ} (h : marshalBinary t = .ok b) :
    ∃ om : ℤ, b = 1 :: (beBytes 8 (toUintBits 8 t.sec) ++ beBytes 4 (toUintBits 4 t.nsec)
      ++ beBytes 2 (toUintBits 2 om)) := by
  unfold marshalBinary at h
  split at h
  · exact ⟨-1, (Except.ok.inj h).symm⟩
  · split at h
    · exact absurd h (by simp)
    · split at h
      · exact absurd h (by simp)
      · exact ⟨t.offset / 60, (Except.ok.inj h).symm⟩

theorem marshalBinary_ok_length {t : GoTime} {b : List ℕ} (h : marshalBinary t = .ok b) :
    b.length = 15 := by
  obtain ⟨om, rfl⟩ := marshalBinary_ok h
  simp [beBytes_length]

theorem encodeTime_ok {t : GoTime} {b : List ℕ} (h : marshalBinary t = .ok b) :
    encodeTime t
      = .ok (beBytes 8 (toUintBits 8 t.sec) ++ beBytes 4 (toUintBits 4 t.nsec)) := by
  obtain ⟨om, hb⟩ := marshalBinary_ok h
  unfold encodeTime
  rw [h, hb]
  have h12 : (beBytes 8 (toUintBits 8 t.sec) ++ beBytes 4 (toUintBits 4 t.nsec)).length
      = 12 := by
    simp [beBytes_length]
  simp only [List.drop_succ_cons, List.drop_zero, List.length_cons]
  rw [show (beBytes 8 (toUintBits 8 t.sec) ++ beBytes 4 (toUintBits 4 t.nsec)
      ++ beBytes 2 (toUintBits 2 om)).length + 1 - 3 = 12 by
    simp [beBytes_length]]
  rw [List.take_left' h12]

theorem encodeTime_error {t : GoTime} {e : String} (h : marshalBinary t = .error e) :
    encodeTime t = .error ("bytesort.Encode: " ++ e) := by
  unfold encodeTime
  rw [h]

theorem marshalBinary_isOk_of_validZone {t : GoTime} (h : validZone t) :
    ∃ b, marshalBinary t = .ok b := by
  unfold marshalBinary
  rcases h with hutc | ⟨hdvd, h1, h2, h3⟩
  · rw [if_pos hutc]
    exact ⟨_, rfl⟩
  · by_cases hu : t.utc
    · rw [if_pos hu]
      exact ⟨_, rfl⟩
    · rw [if_neg hu, if_neg (by simpa using hdvd), if_neg (by omega)]
      exact ⟨_, rfl⟩

end Bytesort

namespace Bytesort

/-! ### Bridge lemmas for the claim theorems -/

theorem lexLe_single {a b : ℕ} : (lexLe [a] [b] = true) ↔ a ≤ b := by
  simp only [lexLe]
  by_cases h1 : a < b
  · simp [h1]
    omega
  · by_cases h2 : a = b
    · simp [h1, h2]
    · simp [h1, h2]
      omega

theorem beBytes_one {x : ℕ} (h : x < 256) : beBytes 1 x = [x] := by
  simp [beBytes, Nat.shiftRight_eq_div_pow, Nat.mod_eq_of_lt h]

theorem toUintBits_eq {w : ℕ} {v : ℤ} (h0 : 0 ≤ v) (h1 : v < (2:ℤ) ^ (8 * w)) :
    toUintBits w v = v.toNat := by
  unfold toUintBits
  rw [Int.emod_eq_of_lt h0 h1]

/-- Order-preservation of the signed encoding, via the offset reading. -/
theorem signed_le_iff {w : ℕ} (hw : 1 ≤ w) {v u : ℤ}
    (hv1 : -(2 ^ (8 * w - 1)) ≤ v) (hv2 : v < 2 ^ (8 * w - 1))
    (hu1 : -(2 ^ (8 * w - 1)) ≤ u) (hu2 : u < 2 ^ (8 * w - 1)) :
    (lexLe ((beBytes w (toUintBits w v)).modifyHead (· ^^^ 0x80))
           ((beBytes w (toUintBits w u)).modifyHead (· ^^^ 0x80)) = true) ↔ v ≤ u := by
  have hcast : (((2:ℕ) ^ (8 * w - 1) : ℕ) : ℤ) = (2:ℤ) ^ (8 * w - 1) := by push_cast; ring
  have hcast2 : (((2:ℕ) ^ (8 * w) : ℕ) : ℤ) = (2:ℤ) ^ (8 * w) := by push_cast; ring
  have hsplit : ((2:ℤ) ^ (8 * w)) = 2 ^ (8 * w - 1) * 2 := by
    conv_lhs => rw [show 8 * w = (8 * w - 1) + 1 by omega]
    rw [pow_succ]
  have hb1 : (v + 2 ^ (8 * w - 1)).toNat < 2 ^ (8 * w) := by omega
  have hb2 : (u + 2 ^ (8 * w - 1)).toNat < 2 ^ (8 * w) := by omega
  rw [signed_bytes_eq hw hv1 hv2, signed_bytes_eq hw hu1 hu2, beBytes_le_iff hb1 hb2]
  omega

/-- The transformed float word stays inside the width. -/
theorem floatFlip_lt {w bits : ℕ} (hw : 1 ≤ w) (h : bits < 2 ^ w) :
    floatFlipBits w bits < 2 ^ w := by
  rw [floatFlip_eq hw h]
  have hsplit : (2:ℕ) ^ w = 2 ^ (w - 1) * 2 := by
    conv_lhs => rw [show w = (w - 1) + 1 by omega]
    rw [pow_succ]
  split <;> omega

/-- The string branch preserves bytewise order on every pair except
`("\x00", "")`, whose encodings coincide. -/
theorem encodeString_le_iff {s t : List ℕ} (h : ¬(s = [0] ∧ t = [])) :
    (lexLe (encodeString s) (encodeString t) = true) ↔ lexLe s t = true := by
  unfold encodeString
  rcases s with _ | ⟨a, as⟩ <;> rcases t with _ | ⟨b, bs⟩
  · simp [lexLe]
  · simp only [List.length_nil, List.length_cons, if_pos rfl,
      if_neg (Nat.succ_ne_zero _)]
    have hleft : lexLe [0] (b :: bs) = true := by
      rcases Nat.eq_zero_or_pos b with hb | hb
      · subst hb
        simp [lexLe]
      · simp [lexLe, hb]
    simp [hleft, lexLe]
    omega
  · simp only [List.length_nil, List.length_cons, if_pos rfl,
      if_neg (Nat.succ_ne_zero _)]
    have hright : lexLe (a :: as) [0] = false := by
      rcases Nat.eq_zero_or_pos a with ha | ha
      · subst ha
        have has : as ≠ [] := by
          intro hc
          exact h ⟨by rw [hc], rfl⟩
        rcases as with _ | ⟨c, cs⟩
        · exact absurd rfl has
        · simp [lexLe]
      · simp [lexLe]
        omega
    simp [hright, lexLe]
    intro ha
    subst ha
    rcases as with _ | ⟨c, cs⟩
    · exact absurd ⟨rfl, rfl⟩ h
    · rfl
  · simp only [List.length_cons, if_neg (Nat.succ_ne_zero _)]

end Bytesort

namespace Bytesort

theorem length_modifyHead_xor (l : List ℕ) : (l.modifyHead (· ^^^ 0x80)).length = l.length := by
  cases l <;> simp

/-! ### Claim theorems -/

/-- C3 counterexample: the empty string does not encode to a zero-length
output; `Encode ""` is the single byte `0x00`, of length `1 ≠ 0`. -/
theorem C3_counterexample :
    Encode (.stringV []) = .ok [0]
    ∧ ([0] : List ℕ).length ≠ ([] : List ℕ).length := by
  exact ⟨rfl, by decide⟩

/-- C3 (amended): every non-empty string is encoded as its own bytes, so the
output length equals the input length; the empty string is the one
exception and encodes to the single byte `0x00`. -/
theorem C3_string_length :
    (∀ s : List ℕ, s ≠ [] → Encode (.stringV s) = .ok s
      ∧ ∀ b, Encode (.stringV s) = .ok b → b.length = s.length)
    ∧ Encode (.stringV []) = .ok [0] := by
  refine ⟨?_, rfl⟩
  intro s hs
  have henc : Encode (.stringV s) = .ok s := by
    simp only [Encode, encodeString]
    rw [if_neg (by simpa using hs)]
  refine ⟨henc, ?_⟩
  intro b hb
  rw [henc] at hb
  rw [← Except.ok.inj hb]

/-- C3 witness: the amended statement at the string `"abc"`. -/
theorem C3_witness :
    Encode (.stringV [97, 98, 99]) = .ok [97, 98, 99] :=
  (C3_string_length.1 [97, 98, 99] (by decide)).1

/-- C7: `Encode` of `nil`, of an empty `[]string` slice, and of a
`map[string]string` each fail with the `unsupported type` error naming the
rejected type, and carry no bytes (the error constructor has none). -/
theorem C7_unsupported_rejected :
    Encode .nilV = .error "bytesort.Encode: unsupported type <nil>"
    ∧ Encode .stringSliceV = .error "bytesort.Encode: unsupported type []string"
    ∧ Encode .mapStringStringV
        = .error "bytesort.Encode: unsupported type map[string]string" :=
  ⟨rfl, rfl, rfl⟩

/-- C8: the encoded length is a constant for every fixed-width category:
1 byte for `bool`, `int8`, `uint8`; 2 for `int16`, `uint16`; 4 for `int32`,
`uint32`, `float32`; 8 for `int64`, `uint64`, `float64`, and for the
platform-sized `int` and `uint`, which are always encoded at the fixed
64-bit width. -/
theorem C8_fixed_width :
    (∀ b, (Encode (.boolV b)).map List.length = .ok 1)
    ∧ (∀ v, (Encode (.int8V v)).map List.length = .ok 1)
    ∧ (∀ v, (Encode (.uint8V v)).map List.length = .ok 1)
    ∧ (∀ v, (Encode (.int16V v)).map List.length = .ok 2)
    ∧ (∀ v, (Encode (.uint16V v)).map List.length = .ok 2)
    ∧ (∀ v, (Encode (.int32V v)).map List.length = .ok 4)
    ∧ (∀ v, (Encode (.uint32V v)).map List.length = .ok 4)
    ∧ (∀ v, (Encode (.float32V v)).map List.length = .ok 4)
    ∧ (∀ v, (Encode (.int64V v)).map List.length = .ok 8)
    ∧ (∀ v, (Encode (.uint64V v)).map List.length = .ok 8)
    ∧ (∀ v, (Encode (.float64V v)).map List.length = .ok 8)
    ∧ (∀ v, (Encode (.intV v)).map List.length = .ok 8)
    ∧ (∀ v, (Encode (.uintV v)).map List.length = .ok 8) := by
  refine ⟨?_, ?_, ?_, ?_, ?_, ?_, ?_, ?_, ?_, ?_, ?_, ?_, ?_⟩ <;>
    intro v <;>
    simp [Encode, encodeInt, intDataSize, signFlip, intBytes, Except.map,
      encodeFloat64, encodeFloat32, length_modifyHead_xor, beBytes_length]

/-- C9: whenever `Encode` succeeds the returned slice is non-empty; in
particular the empty string becomes the single byte `0x00`, not an empty
slice. -/
theorem C9_nonempty :
    (∀ v b, Encode v = .ok b → 1 ≤ b.length) ∧ Encode (.stringV []) = .ok [0] := by
  refine ⟨?_, rfl⟩
  intro v b h
  cases v with
  | stringV s =>
    simp only [Encode] at h
    rw [← Except.ok.inj h]
    unfold encodeString
    split
    · decide
    · next hlen => omega
  | timeV t =>
    simp only [Encode] at h
    cases hm : marshalBinary t with
    | error e =>
      rw [encodeTime_error hm] at h
      exact absurd h (by simp)
    | ok mb =>
      rw [encodeTime_ok hm] at h
      rw [← Except.ok.inj h]
      simp [beBytes_length]
  | float64V bits =>
    simp only [Encode] at h
    rw [← Except.ok.inj h]
    simp [encodeFloat64, beBytes_length]
  | float32V bits =>
    simp only [Encode] at h
    rw [← Except.ok.inj h]
    simp [encodeFloat32, beBytes_length]
  | nilV => exact absurd h (by simp [Encode, encodeInt, intDataSize])
  | stringSliceV => exact absurd h (by simp [Encode, encodeInt, intDataSize])
  | mapStringStringV => exact absurd h (by simp [Encode, encodeInt, intDataSize])
  | int64TypeV v => exact absurd h (by simp [Encode, encodeInt, intDataSize])
  | boolV a =>
    have he : Encode (.boolV a) = .ok [if a then 1 else 0] := rfl
    rw [he] at h
    rw [← Except.ok.inj h]
    cases a <;> decide
  | int8V v =>
    have he : Encode (.int8V v) = .ok [toUintBits 1 v ^^^ 0x80] := rfl
    rw [he] at h
    rw [← Except.ok.inj h]
    simp
  | uint8V v =>
    have he : Encode (.uint8V v) = .ok [v] := rfl
    rw [he] at h
    rw [← Except.ok.inj h]
    simp
  | int16V v =>
    have he : Encode (.int16V v)
        = .ok ((beBytes 2 (toUintBits 2 v)).modifyHead (· ^^^ 0x80)) := rfl
    rw [he] at h
    rw [← Except.ok.inj h]
    simp [length_modifyHead_xor, beBytes_length]
  | uint16V v =>
    have he : Encode (.uint16V v) = .ok (beBytes 2 v) := rfl
    rw [he] at h
    rw [← Except.ok.inj h]
    simp [beBytes_length]
  | int32V v =>
    have he : Encode (.int32V v)
        = .ok ((beBytes 4 (toUintBits 4 v)).modifyHead (· ^^^ 0x80)) := rfl
    rw [he] at h
    rw [← Except.ok.inj h]
    simp [length_modifyHead_xor, beBytes_length]
  | uint32V v =>
    have he : Encode (.uint32V v) = .ok (beBytes 4 v) := rfl
    rw [he] at h
    rw [← Except.ok.inj h]
    simp [beBytes_length]
  | int64V v =>
    have he : Encode (.int64V v)
        = .ok ((beBytes 8 (toUintBits 8 v)).modifyHead (· ^^^ 0x80)) := rfl
    rw [he] at h
    rw [← Except.ok.inj h]
    simp [length_modifyHead_xor, beBytes_length]
  | uint64V v =>
    have he : Encode (.uint64V v) = .ok (beBytes 8 v) := rfl
    rw [he] at h
    rw [← Except.ok.inj h]
    simp [beBytes_length]
  | intV v =>
    have he : Encode (.intV v)
        = .ok ((beBytes 8 (toUintBits 8 v)).modifyHead (· ^^^ 0x80)) := rfl
    rw [he] at h
    rw [← Except.ok.inj h]
    simp [length_modifyHead_xor, beBytes_length]
  | uintV v =>
    have he : Encode (.uintV v) = .ok (beBytes 8 v) := rfl
    rw [he] at h
    rw [← Except.ok.inj h]
    simp [beBytes_length]

/-- C9 witness: the non-emptiness statement applied to `int16(0)`. -/
theorem C9_witness :
    1 ≤ ([0x80, 0x00] : List ℕ).length :=
  C9_nonempty.1 (.int16V 0) [0x80, 0x00] rfl

/-- C2: evaluating the dispatcher at the test suite's wrapper value.
`Encode` in `bytesort.go` has no case for the `Encoder`/`EncodeSortable`
capability, so the wrapper type around `int64` falls through the type
switch into `encodeInt`, whose type switch also does not match a defined
type, and the call is rejected as unsupported instead of delegating — while
the raw `int64` encodes fine. -/
theorem C2_wrapper_not_dispatched :
    Encode (.int64TypeV 0)
        = .error "bytesort.Encode: unsupported type bytesort_test.int64Type"
    ∧ Encode (.int64V 0) = .ok [0x80, 0, 0, 0, 0, 0, 0, 0] :=
  ⟨rfl, rfl⟩

end Bytesort

namespace Bytesort

/-- C4: each signed width encodes as the big-endian two's complement with
the most significant bit of the first byte XOR-ed with `0x80` — equivalently
the offset-binary (excess-`2^(8W-1)`) big-endian bytes of `v + 2^(8W-1)` —
and the three concrete `int16` values encode to `0x0000`, `0x8000` and
`0xFFFF`. -/
theorem C4_signed_encoding :
    (∀ v : ℤ, -(2^7) ≤ v → v < 2^7 →
      Encode (.int8V v) = .ok ((beBytes 1 (toUintBits 1 v)).modifyHead (· ^^^ 0x80))
      ∧ Encode (.int8V v) = .ok (beBytes 1 (v + 2^7).toNat))
    ∧ (∀ v : ℤ, -(2^15) ≤ v → v < 2^15 →
      Encode (.int16V v) = .ok ((beBytes 2 (toUintBits 2 v)).modifyHead (· ^^^ 0x80))
      ∧ Encode (.int16V v) = .ok (beBytes 2 (v + 2^15).toNat))
    ∧ (∀ v : ℤ, -(2^31) ≤ v → v < 2^31 →
      Encode (.int32V v) = .ok ((beBytes 4 (toUintBits 4 v)).modifyHead (· ^^^ 0x80))
      ∧ Encode (.int32V v) = .ok (beBytes 4 (v + 2^31).toNat))
    ∧ (∀ v : ℤ, -(2^63) ≤ v → v < 2^63 →
      Encode (.int64V v) = .ok ((beBytes 8 (toUintBits 8 v)).modifyHead (· ^^^ 0x80))
      ∧ Encode (.int64V v) = .ok (beBytes 8 (v + 2^63).toNat))
    ∧ Encode (.int16V (-32768)) = .ok [0x00, 0x00]
    ∧ Encode (.int16V 0) = .ok [0x80, 0x00]
    ∧ Encode (.int16V 32767) = .ok [0xFF, 0xFF] := by
  refine ⟨?_, ?_, ?_, ?_, rfl, rfl, rfl⟩
  · intro v h1 h2
    have hx : toUintBits 1 v < 256 := by
      have h := toUintBits_lt 1 v
      norm_num at h
      exact h
    constructor
    · rw [show Encode (.int8V v) = .ok ([toUintBits 1 v].modifyHead (· ^^^ 0x80)) from rfl,
        beBytes_one hx]
    · rw [show Encode (.int8V v) = .ok ([toUintBits 1 v].modifyHead (· ^^^ 0x80)) from rfl,
        ← beBytes_one hx, signed_bytes_eq (by norm_num) h1 h2]
  · intro v h1 h2
    exact ⟨rfl, by
      rw [show Encode (.int16V v)
          = .ok ((beBytes 2 (toUintBits 2 v)).modifyHead (· ^^^ 0x80)) from rfl,
        signed_bytes_eq (by norm_num) h1 h2]⟩
  · intro v h1 h2
    exact ⟨rfl, by
      rw [show Encode (.int32V v)
          = .ok ((beBytes 4 (toUintBits 4 v)).modifyHead (· ^^^ 0x80)) from rfl,
        signed_bytes_eq (by norm_num) h1 h2]⟩
  · intro v h1 h2
    exact ⟨rfl, by
      rw [show Encode (.int64V v)
          = .ok ((beBytes 8 (toUintBits 8 v)).modifyHead (· ^^^ 0x80)) from rfl,
        signed_bytes_eq (by norm_num) h1 h2]⟩

/-- C4 witness: the offset reading at `int16(5)`. -/
theorem C4_witness :
    Encode (.int16V 5) = .ok (beBytes 2 ((5:ℤ) + 2^15).toNat) :=
  (C4_signed_encoding.2.1 5 (by decide) (by decide)).2

/-- C5: the float transform XORs the bit pattern with
`-(bits >> (w-1)) | 1 << (w-1)` (that is the definition of
`floatFlipBits`), which on every pattern — NaN and the zeros included, with
no special-casing — flips all bits when the sign bit is set and only the
sign bit when it is clear, then writes the word big-endian. -/
theorem C5_float_transform :
    (∀ bits : ℕ, bits < 2^64 →
      Encode (.float64V bits)
        = .ok (beBytes 8 (if bits < 2^63 then bits + 2^63 else 2^64 - 1 - bits)))
    ∧ (∀ bits : ℕ, bits < 2^32 →
      Encode (.float32V bits)
        = .ok (beBytes 4 (if bits < 2^31 then bits + 2^31 else 2^32 - 1 - bits))) := by
  constructor
  · intro bits h
    show Except.ok (encodeFloat64 bits) = _
    unfold encodeFloat64
    rw [floatFlip_eq (by norm_num) h]
  · intro bits h
    show Except.ok (encodeFloat32 bits) = _
    unfold encodeFloat32
    rw [floatFlip_eq (by norm_num) h]

/-- C5 witness: the transform at the bit patterns of `+0.0` and `-0.0`. -/
theorem C5_witness :
    Encode (.float64V 0)
        = .ok (beBytes 8 (if (0:ℕ) < 2^63 then 0 + 2^63 else 2^64 - 1 - 0))
    ∧ Encode (.float64V (2^63))
        = .ok (beBytes 8 (if (2^63:ℕ) < 2^63 then 2^63 + 2^63 else 2^64 - 1 - 2^63)) :=
  ⟨C5_float_transform.1 0 (by norm_num), C5_float_transform.1 (2^63) (by norm_num)⟩

/-- C10: the modelled `MarshalBinary` only succeeds with 15 bytes (so the
slice `b[1:len(b)-2]` is in bounds), every successful time encoding is
exactly 12 bytes, and a marshal failure is returned wrapped with the
`bytesort.Encode: ` prefix and no bytes. -/
theorem C10_time_safety :
    (∀ t b, marshalBinary t = .ok b → 3 ≤ b.length ∧ b.length = 15)
    ∧ (∀ t l, Encode (.timeV t) = .ok l → l.length = 12)
    ∧ (∀ t e, marshalBinary t = .error e →
        Encode (.timeV t) = .error ("bytesort.Encode: " ++ e)) := by
  refine ⟨?_, ?_, ?_⟩
  · intro t b h
    have h15 := marshalBinary_ok_length h
    omega
  · intro t l h
    simp only [Encode] at h
    cases hm : marshalBinary t with
    | error e =>
      rw [encodeTime_error hm] at h
      exact absurd h (by simp)
    | ok mb =>
      rw [encodeTime_ok hm] at h
      rw [← Except.ok.inj h]
      simp [beBytes_length]
  · intro t e h
    show encodeTime t = _
    exact encodeTime_error h

/-- C10 witness: the marshalled form of the UTC epoch of the internal
calendar has 15 bytes, and its encoding drops to 12. -/
theorem C10_witness :
    (3 ≤ ([1,0,0,0,0,0,0,0,0,0,0,0,0,255,255] : List ℕ).length
      ∧ ([1,0,0,0,0,0,0,0,0,0,0,0,0,255,255] : List ℕ).length = 15)
    ∧ ([0,0,0,0,0,0,0,0,0,0,0,0] : List ℕ).length = 12 :=
  ⟨C10_time_safety.1 ⟨0, 0, true, 0⟩ _ rfl,
    C10_time_safety.2.1 ⟨0, 0, true, 0⟩ _ rfl⟩

/-- C6 counterexample: the same physical instant carried once in UTC and
once in a fixed zone whose offset is 30 seconds (not a whole minute): the
zone variant is rejected by `MarshalBinary`, so `Encode` returns an error
and no bytes while the UTC variant returns 12 bytes — not identical byte
slices. -/
theorem C6_counterexample :
    Encode (.timeV ⟨0, 0, false, 30⟩)
        = .error "bytesort.Encode: Time.MarshalBinary: zone offset has fractional minute"
    ∧ Encode (.timeV ⟨0, 0, true, 0⟩) = .ok [0,0,0,0,0,0,0,0,0,0,0,0]
    ∧ (Except.error "bytesort.Encode: Time.MarshalBinary: zone offset has fractional minute"
        ≠ (Except.ok [0,0,0,0,0,0,0,0,0,0,0,0] : Except String (List ℕ))) :=
  ⟨rfl, rfl, by simp⟩

/-- C6 (amended): two `time.Time` values denoting the same physical instant
(equal absolute second and nanosecond counts) with different zone offsets
encode identically, provided both zone offsets are representable in the
marshal format (whole minutes, within `int16`, not the reserved `-1`) —
the condition under which `MarshalBinary` succeeds. -/
theorem C6_zone_independence (t u : GoTime) (hsec : t.sec = u.sec)
    (hnsec : t.nsec = u.nsec) (ht : validZone t) (hu : validZone u) :
    Encode (.timeV t) = Encode (.timeV u) := by
  obtain ⟨b1, h1⟩ := marshalBinary_isOk_of_validZone ht
  obtain ⟨b2, h2⟩ := marshalBinary_isOk_of_validZone hu
  show encodeTime t = encodeTime u
  rw [encodeTime_ok h1, encodeTime_ok h2, hsec, hnsec]

/-- C6 witness: the instant 5 seconds, 7 nanoseconds into the internal
calendar, in UTC and in the fixed zone UTC-4. -/
theorem C6_witness :
    Encode (.timeV ⟨5, 7, true, 0⟩) = Encode (.timeV ⟨5, 7, false, -14400⟩) :=
  C6_zone_independence _ _ rfl rfl (by decide) (by decide)

end Bytesort

namespace Bytesort

/-- C1 counterexample: the equivalence fails as stated, in three places the
code itself forces.  Strings: `"\x00"` and `""` encode to the same byte
`0x00`, so `encode("\x00") ⪯ encode("")` although `"\x00" ≤ ""` is false.
Floats: under IEEE-754 order `+0 ≤ -0` (they are equal), but the encoding
of `+0` sorts strictly after that of `-0`; and a NaN is `≤`-incomparable
to itself while its encoding trivially equals itself.  Instants: an
instant one second before January 1 of year 1 (negative absolute second
count) is chronologically earlier but its encoding sorts after. -/
theorem C1_counterexample :
    (Encode (.stringV [0]) = .ok [0] ∧ Encode (.stringV []) = .ok [0]
      ∧ lexLe [0] [] = false ∧ lexLe [0] [0] = true)
    ∧ (f64le 0 (2^63)
      ∧ Encode (.float64V 0) = .ok [128,0,0,0,0,0,0,0]
      ∧ Encode (.float64V (2^63)) = .ok [127,255,255,255,255,255,255,255]
      ∧ lexLe [128,0,0,0,0,0,0,0] [127,255,255,255,255,255,255,255] = false)
    ∧ (isNaNBits 11 52 0x7FF0000000000001
      ∧ ¬ f64le 0x7FF0000000000001 0x7FF0000000000001
      ∧ lexLe (encodeFloat64 0x7FF0000000000001) (encodeFloat64 0x7FF0000000000001)
          = true)
    ∧ (chronoLe ⟨-1, 0, true, 0⟩ ⟨0, 0, true, 0⟩
      ∧ Encode (.timeV ⟨-1, 0, true, 0⟩)
          = .ok [255,255,255,255,255,255,255,255,0,0,0,0]
      ∧ Encode (.timeV ⟨0, 0, true, 0⟩) = .ok [0,0,0,0,0,0,0,0,0,0,0,0]
      ∧ lexLe [255,255,255,255,255,255,255,255,0,0,0,0] [0,0,0,0,0,0,0,0,0,0,0,0]
          = false) := by
  refine ⟨⟨rfl, rfl, by decide, by decide⟩, ⟨by decide, rfl, rfl, by decide⟩,
    ⟨by decide, by decide, by decide⟩, ⟨by decide, rfl, rfl, by decide⟩⟩

/-- C1 (amended): within each supported category, natural order agrees with
unsigned bytewise lexicographic order of the encodings — for booleans, for
signed and unsigned integers of every width (the platform `int` at its
fixed 64-bit range), with three code-forced qualifications: for strings
the equivalence holds on every pair except `("\x00", "")`, whose encodings
coincide; for floats it holds on non-NaN bit patterns under `frankStrict`,
the IEEE-754 value order refined so that `-0` sorts strictly before `+0`;
for instants it holds from January 1 of year 1 on (non-negative absolute
second count, with zone offsets the marshal step accepts). -/
theorem C1_order_preservation :
    (∀ a b : Bool, ∀ xa xb, Encode (.boolV a) = .ok xa → Encode (.boolV b) = .ok xb →
      (a ≤ b ↔ lexLe xa xb = true))
    ∧ (∀ a b : ℕ, a < 2^8 → b < 2^8 →
      ∀ xa xb, Encode (.uint8V a) = .ok xa → Encode (.uint8V b) = .ok xb →
      (a ≤ b ↔ lexLe xa xb = true))
    ∧ (∀ a b : ℕ, a < 2^16 → b < 2^16 →
      ∀ xa xb, Encode (.uint16V a) = .ok xa → Encode (.uint16V b) = .ok xb →
      (a ≤ b ↔ lexLe xa xb = true))
    ∧ (∀ a b : ℕ, a < 2^32 → b < 2^32 →
      ∀ xa xb, Encode (.uint32V a) = .ok xa → Encode (.uint32V b) = .ok xb →
      (a ≤ b ↔ lexLe xa xb = true))
    ∧ (∀ a b : ℕ, a < 2^64 → b < 2^64 →
      ∀ xa xb, Encode (.uint64V a) = .ok xa → Encode (.uint64V b) = .ok xb →
      (a ≤ b ↔ lexLe xa xb = true))
    ∧ (∀ a b : ℕ, a < 2^64 → b < 2^64 →
      ∀ xa xb, Encode (.uintV a) = .ok xa → Encode (.uintV b) = .ok xb →
      (a ≤ b ↔ lexLe xa xb = true))
    ∧ (∀ a b : ℤ, -(2^7) ≤ a → a < 2^7 → -(2^7) ≤ b → b < 2^7 →
      ∀ xa xb, Encode (.int8V a) = .ok xa → Encode (.int8V b) = .ok xb →
      (a ≤ b ↔ lexLe xa xb = true))
    ∧ (∀ a b : ℤ, -(2^15) ≤ a → a < 2^15 → -(2^15) ≤ b → b < 2^15 →
      ∀ xa xb, Encode (.int16V a) = .ok xa → Encode (.int16V b) = .ok xb →
      (a ≤ b ↔ lexLe xa xb = true))
    ∧ (∀ a b : ℤ, -(2^31) ≤ a → a < 2^31 → -(2^31) ≤ b → b < 2^31 →
      ∀ xa xb, Encode (.int32V a) = .ok xa → Encode (.int32V b) = .ok xb →
      (a ≤ b ↔ lexLe xa xb = true))
    ∧ (∀ a b : ℤ, -(2^63) ≤ a → a < 2^63 → -(2^63) ≤ b → b < 2^63 →
      ∀ xa xb, Encode (.int64V a) = .ok xa → Encode (.int64V b) = .ok xb →
      (a ≤ b ↔ lexLe xa xb = true))
    ∧ (∀ a b : ℤ, -(2^63) ≤ a → a < 2^63 → -(2^63) ≤ b → b < 2^63 →
      ∀ xa xb, Encode (.intV a) = .ok xa → Encode (.intV b) = .ok xb →
      (a ≤ b ↔ lexLe xa xb = true))
    ∧ (∀ s t : List ℕ, ¬(s = [0] ∧ t = []) →
      ∀ xa xb, Encode (.stringV s) = .ok xa → Encode (.stringV t) = .ok xb →
      (lexLe s t = true ↔ lexLe xa xb = true))
    ∧ (∀ a b : ℕ, a < 2^64 → b < 2^64 →
      ¬ isNaNBits 11 52 a → ¬ isNaNBits 11 52 b →
      ∀ xa xb, Encode (.float64V a) = .ok xa → Encode (.float64V b) = .ok xb →
      (frankStrict 64 11 52 a ≤ frankStrict 64 11 52 b ↔ lexLe xa xb = true))
    ∧ (∀ a b : ℕ, a < 2^32 → b < 2^32 →
      ¬ isNaNBits 8 23 a → ¬ isNaNBits 8 23 b →
      ∀ xa xb, Encode (.float32V a) = .ok xa → Encode (.float32V b) = .ok xb →
      (frankStrict 32 8 23 a ≤ frankStrict 32 8 23 b ↔ lexLe xa xb = true))
    ∧ (∀ t u : GoTime, 0 ≤ t.sec → t.sec < 2^63 → 0 ≤ u.sec → u.sec < 2^63 →
      0 ≤ t.nsec → t.nsec < 2^32 → 0 ≤ u.nsec → u.nsec < 2^32 →
      ∀ xa xb, Encode (.timeV t) = .ok xa → Encode (.timeV u) = .ok xb →
      (chronoLe t u ↔ lexLe xa xb = true)) := by
  refine ⟨?_, ?_, ?_, ?_, ?_, ?_, ?_, ?_, ?_, ?_, ?_, ?_, ?_, ?_, ?_⟩
  · -- bool
    intro a b xa xb hxa hxb
    rw [show Encode (.boolV a) = .ok [if a then 1 else 0] from rfl] at hxa
    rw [show Encode (.boolV b) = .ok [if b then 1 else 0] from rfl] at hxb
    rw [← Except.ok.inj hxa, ← Except.ok.inj hxb]
    cases a <;> cases b <;> decide
  · -- uint8
    intro a b ha hb xa xb hxa hxb
    rw [show Encode (.uint8V a) = .ok [a] from rfl] at hxa
    rw [show Encode (.uint8V b) = .ok [b] from rfl] at hxb
    rw [← Except.ok.inj hxa, ← Except.ok.inj hxb]
    exact lexLe_single.symm
  · -- uint16
    intro a b ha hb xa xb hxa hxb
    rw [show Encode (.uint16V a) = .ok (beBytes 2 a) from rfl] at hxa
    rw [show Encode (.uint16V b) = .ok (beBytes 2 b) from rfl] at hxb
    rw [← Except.ok.inj hxa, ← Except.ok.inj hxb]
    exact (beBytes_le_iff ha hb).symm
  · -- uint32
    intro a b ha hb xa xb hxa hxb
    rw [show Encode (.uint32V a) = .ok (beBytes 4 a) from rfl] at hxa
    rw [show Encode (.uint32V b) = .ok (beBytes 4 b) from rfl] at hxb
    rw [← Except.ok.inj hxa, ← Except.ok.inj hxb]
    exact (beBytes_le_iff ha hb).symm
  · -- uint64
    intro a b ha hb xa xb hxa hxb
    rw [show Encode (.uint64V a) = .ok (beBytes 8 a) from rfl] at hxa
    rw [show Encode (.uint64V b) = .ok (beBytes 8 b) from rfl] at hxb
    rw [← Except.ok.inj hxa, ← Except.ok.inj hxb]
    exact (beBytes_le_iff ha hb).symm
  · -- uint (platform, 64-bit)
    intro a b ha hb xa xb hxa hxb
    rw [show Encode (.uintV a) = .ok (beBytes 8 a) from rfl] at hxa
    rw [show Encode (.uintV b) = .ok (beBytes 8 b) from rfl] at hxb
    rw [← Except.ok.inj hxa, ← Except.ok.inj hxb]
    exact (beBytes_le_iff ha hb).symm
  · -- int8
    intro a b h1 h2 h3 h4 xa xb hxa hxb
    have hxa' : toUintBits 1 a < 256 := by
      have h := toUintBits_lt 1 a
      norm_num at h
      exact h
    have hxb' : toUintBits 1 b < 256 := by
      have h := toUintBits_lt 1 b
      norm_num at h
      exact h
    rw [show Encode (.int8V a) = .ok ([toUintBits 1 a].modifyHead (· ^^^ 0x80)) from rfl]
      at hxa
    rw [show Encode (.int8V b) = .ok ([toUintBits 1 b].modifyHead (· ^^^ 0x80)) from rfl]
      at hxb
    rw [← Except.ok.inj hxa, ← Except.ok.inj hxb, ← beBytes_one hxa', ← beBytes_one hxb']
    exact (signed_le_iff (by norm_num) h1 h2 h3 h4).symm
  · -- int16
    intro a b h1 h2 h3 h4 xa xb hxa hxb
    rw [show Encode (.int16V a)
        = .ok ((beBytes 2 (toUintBits 2 a)).modifyHead (· ^^^ 0x80)) from rfl] at hxa
    rw [show Encode (.int16V b)
        = .ok ((beBytes 2 (toUintBits 2 b)).modifyHead (· ^^^ 0x80)) from rfl] at hxb
    rw [← Except.ok.inj hxa, ← Except.ok.inj hxb]
    exact (signed_le_iff (by norm_num) h1 h2 h3 h4).symm
  · -- int32
    intro a b h1 h2 h3 h4 xa xb hxa hxb
    rw [show Encode (.int32V a)
        = .ok ((beBytes 4 (toUintBits 4 a)).modifyHead (· ^^^ 0x80)) from rfl] at hxa
    rw [show Encode (.int32V b)
        = .ok ((beBytes 4 (toUintBits 4 b)).modifyHead (· ^^^ 0x80)) from rfl] at hxb
    rw [← Except.ok.inj hxa, ← Except.ok.inj hxb]
    exact (signed_le_iff (by norm_num) h1 h2 h3 h4).symm
  · -- int64
    intro a b h1 h2 h3 h4 xa xb hxa hxb
    rw [show Encode (.int64V a)
        = .ok ((beBytes 8 (toUintBits 8 a)).modifyHead (· ^^^ 0x80)) from rfl] at hxa
    rw [show Encode (.int64V b)
        = .ok ((beBytes 8 (toUintBits 8 b)).modifyHead (· ^^^ 0x80)) from rfl] at hxb
    rw [← Except.ok.inj hxa, ← Except.ok.inj hxb]
    exact (signed_le_iff (by norm_num) h1 h2 h3 h4).symm
  · -- int (platform, 64-bit)
    intro a b h1 h2 h3 h4 xa xb hxa hxb
    rw [show Encode (.intV a)
        = .ok ((beBytes 8 (toUintBits 8 a)).modifyHead (· ^^^ 0x80)) from rfl] at hxa
    rw [show Encode (.intV b)
        = .ok ((beBytes 8 (toUintBits 8 b)).modifyHead (· ^^^ 0x80)) from rfl] at hxb
    rw [← Except.ok.inj hxa, ← Except.ok.inj hxb]
    exact (signed_le_iff (by norm_num) h1 h2 h3 h4).symm
  · -- string
    intro s t h xa xb hxa hxb
    rw [show Encode (.stringV s) = .ok (encodeString s) from rfl] at hxa
    rw [show Encode (.stringV t) = .ok (encodeString t) from rfl] at hxb
    rw [← Except.ok.inj hxa, ← Except.ok.inj hxb]
    exact (encodeString_le_iff h).symm
  · -- float64
    intro a b ha hb hna hnb xa xb hxa hxb
    rw [show Encode (.float64V a) = .ok (encodeFloat64 a) from rfl] at hxa
    rw [show Encode (.float64V b) = .ok (encodeFloat64 b) from rfl] at hxb
    rw [← Except.ok.inj hxa, ← Except.ok.inj hxb]
    unfold encodeFloat64
    rw [beBytes_le_iff (floatFlip_lt (by norm_num) ha) (floatFlip_lt (by norm_num) hb)]
    exact @frankStrict_le_iff 11 52 a b ha hb
  · -- float32
    intro a b ha hb hna hnb xa xb hxa hxb
    rw [show Encode (.float32V a) = .ok (encodeFloat32 a) from rfl] at hxa
    rw [show Encode (.float32V b) = .ok (encodeFloat32 b) from rfl] at hxb
    rw [← Except.ok.inj hxa, ← Except.ok.inj hxb]
    unfold encodeFloat32
    rw [beBytes_le_iff (floatFlip_lt (by norm_num) ha) (floatFlip_lt (by norm_num) hb)]
    exact @frankStrict_le_iff 8 23 a b ha hb
  · -- time.Time
    intro t u h1 h2 h3 h4 h5 h6 h7 h8 xa xb hxa hxb
    simp only [Encode] at hxa hxb
    cases hmt : marshalBinary t with
    | error e =>
      rw [encodeTime_error hmt] at hxa
      exact absurd hxa (by simp)
    | ok mbt =>
    cases hmu : marshalBinary u with
    | error e =>
      rw [encodeTime_error hmu] at hxb
      exact absurd hxb (by simp)
    | ok mbu =>
      rw [encodeTime_ok hmt] at hxa
      rw [encodeTime_ok hmu] at hxb
      rw [← Except.ok.inj hxa, ← Except.ok.inj hxb]
      have hts : toUintBits 8 t.sec = t.sec.toNat := toUintBits_eq h1 (by norm_num; omega)
      have hus : toUintBits 8 u.sec = u.sec.toNat := toUintBits_eq h3 (by norm_num; omega)
      have htn : toUintBits 4 t.nsec = t.nsec.toNat := toUintBits_eq h5 (by norm_num; omega)
      have hun : toUintBits 4 u.nsec = u.nsec.toNat := toUintBits_eq h7 (by norm_num; omega)
      rw [hts, hus, htn, hun]
      have hS : t.sec.toNat < 2 ^ (8 * 8) := by norm_num; omega
      have hS' : u.sec.toNat < 2 ^ (8 * 8) := by norm_num; omega
      have hN : t.nsec.toNat < 2 ^ (8 * 4) := by norm_num; omega
      have hN' : u.nsec.toNat < 2 ^ (8 * 4) := by norm_num; omega
      rw [← beBytes_append hS hN, ← beBytes_append hS' hN']
      rw [beBytes_le_iff (by norm_num; omega) (by norm_num; omega)]
      unfold chronoLe
      constructor
      · intro h
        have h32 : (2:ℕ) ^ (8 * 4) = 4294967296 := by norm_num
        rw [h32]
        omega
      · intro h
        have h32 : (2:ℕ) ^ (8 * 4) = 4294967296 := by norm_num
        rw [h32] at h
        omega

end Bytesort

namespace Bytesort

/-- C1 witness: every conjunct of the amended order-preservation theorem
instantiated at a concrete pair, all hypotheses discharged by evaluation. -/
theorem C1_witness :
    ((false ≤ true) ↔ lexLe [0] [1] = true)
    ∧ ((3:ℕ) ≤ 7 ↔ lexLe [3] [7] = true)
    ∧ ((3:ℕ) ≤ 7 ↔ lexLe [0, 3] [0, 7] = true)
    ∧ ((3:ℕ) ≤ 7 ↔ lexLe [0, 0, 0, 3] [0, 0, 0, 7] = true)
    ∧ ((3:ℕ) ≤ 7 ↔ lexLe [0, 0, 0, 0, 0, 0, 0, 3] [0, 0, 0, 0, 0, 0, 0, 7] = true)
    ∧ ((3:ℕ) ≤ 7 ↔ lexLe [0, 0, 0, 0, 0, 0, 0, 3] [0, 0, 0, 0, 0, 0, 0, 7] = true)
    ∧ ((-3:ℤ) ≤ 7 ↔ lexLe [125] [135] = true)
    ∧ ((-3:ℤ) ≤ 7 ↔ lexLe [127, 253] [128, 7] = true)
    ∧ ((-3:ℤ) ≤ 7 ↔ lexLe [127, 255, 255, 253] [128, 0, 0, 7] = true)
    ∧ ((-3:ℤ) ≤ 7 ↔
        lexLe [127, 255, 255, 255, 255, 255, 255, 253] [128, 0, 0, 0, 0, 0, 0, 7] = true)
    ∧ ((-3:ℤ) ≤ 7 ↔
        lexLe [127, 255, 255, 255, 255, 255, 255, 253] [128, 0, 0, 0, 0, 0, 0, 7] = true)
    ∧ (lexLe [97] [98] = true ↔ lexLe [97] [98] = true)
    ∧ (frankStrict 64 11 52 0 ≤ frankStrict 64 11 52 (2^62) ↔
        lexLe [128, 0, 0, 0, 0, 0, 0, 0] [192, 0, 0, 0, 0, 0, 0, 0] = true)
    ∧ (frankStrict 32 8 23 0 ≤ frankStrict 32 8 23 (2^30) ↔
        lexLe [128, 0, 0, 0] [192, 0, 0, 0] = true)
    ∧ (chronoLe ⟨0, 0, true, 0⟩ ⟨1, 0, true, 0⟩ ↔
        lexLe [0, 0, 0, 0, 0, 0, 0, 0, 0, 0, 0, 0] [0, 0, 0, 0, 0, 0, 0, 1, 0, 0, 0, 0]
          = true) :=
  ⟨C1_order_preservation.1 false true [0] [1] rfl rfl,
   C1_order_preservation.2.1 3 7 (by decide) (by decide) [3] [7] rfl rfl,
   C1_order_preservation.2.2.1 3 7 (by decide) (by decide) [0, 3] [0, 7] rfl rfl,
   C1_order_preservation.2.2.2.1 3 7 (by decide) (by decide)
     [0, 0, 0, 3] [0, 0, 0, 7] rfl rfl,
   C1_order_preservation.2.2.2.2.1 3 7 (by decide) (by decide)
     [0, 0, 0, 0, 0, 0, 0, 3] [0, 0, 0, 0, 0, 0, 0, 7] rfl rfl,
   C1_order_preservation.2.2.2.2.2.1 3 7 (by decide) (by decide)
     [0, 0, 0, 0, 0, 0, 0, 3] [0, 0, 0, 0, 0, 0, 0, 7] rfl rfl,
   C1_order_preservation.2.2.2.2.2.2.1 (-3) 7 (by decide) (by decide) (by decide)
     (by decide) [125] [135] rfl rfl,
   C1_order_preservation.2.2.2.2.2.2.2.1 (-3) 7 (by decide) (by decide) (by decide)
     (by decide) [127, 253] [128, 7] rfl rfl,
   C1_order_preservation.2.2.2.2.2.2.2.2.1 (-3) 7 (by decide) (by decide) (by decide)
     (by decide) [127, 255, 255, 253] [128, 0, 0, 7] rfl rfl,
   C1_order_preservation.2.2.2.2.2.2.2.2.2.1 (-3) 7 (by decide) (by decide) (by decide)
     (by decide) [127, 255, 255, 255, 255, 255, 255, 253] [128, 0, 0, 0, 0, 0, 0, 7]
     rfl rfl,
   C1_order_preservation.2.2.2.2.2.2.2.2.2.2.1 (-3) 7 (by decide) (by decide)
     (by decide) (by decide) [127, 255, 255, 255, 255, 255, 255, 253]
     [128, 0, 0, 0, 0, 0, 0, 7] rfl rfl,
   C1_order_preservation.2.2.2.2.2.2.2.2.2.2.2.1 [97] [98] (by decide) [97] [98]
     rfl rfl,
   C1_order_preservation.2.2.2.2.2.2.2.2.2.2.2.2.1 0 (2^62) (by decide) (by decide)
     (by decide) (by decide) [128, 0, 0, 0, 0, 0, 0, 0] [192, 0, 0, 0, 0, 0, 0, 0]
     rfl rfl,
   C1_order_preservation.2.2.2.2.2.2.2.2.2.2.2.2.2.1 0 (2^30) (by decide) (by decide)
     (by decide) (by decide) [128, 0, 0, 0] [192, 0, 0, 0] rfl rfl,
   C1_order_preservation.2.2.2.2.2.2.2.2.2.2.2.2.2.2 ⟨0, 0, true, 0⟩ ⟨1, 0, true, 0⟩
     (by decide) (by decide) (by decide) (by decide) (by decide) (by decide)
     (by decide) (by decide) [0, 0, 0, 0, 0, 0, 0, 0, 0, 0, 0, 0]
     [0, 0, 0, 0, 0, 0, 0, 1, 0, 0, 0, 0] rfl rfl⟩

end Bytesort
